import Mathlib

/-!
Verification of the SAME (Specific Area Message Encoding) receiver core of the
sameold crate: the Framer / Transport state machines and the burst-consensus
algorithm, checked against the natural-language specification.

The enums `FrameOut` and `TransportState` are embedded directly from
`src/crates/sameold/src/receiver/output.rs`.  The Framer and Transport state
machines themselves, the burst history, the deadline policy and the bit-level
consensus algorithm are repository code that is not available here, so they
are modelled from the specification (each such definition says so in its doc
comment).  The byte stream is modelled at bit granularity: a byte with known
bit alignment is eight consecutive stream positions, so burst payloads are
sequences of bits (`List Bool`) and per-position bit voting acts on them
directly.
-/

namespace Sameold

/-- Modelled from the spec: the structured alert message produced by the
external Message Decoder (the crate's message module is an external
collaborator whose internals are out of scope); it is modelled abstractly as
the raw payload it was decoded from. -/
structure Message where
  raw : List Bool
deriving DecidableEq

/-- Modelled from the spec: the classification of a failed decode returned by
the external Message Decoder; modelled abstractly as an error code. -/
structure MessageDecodeErr where
  code : Nat
deriving DecidableEq

/-- The result of one decode attempt: `Ok(Message)` or `Err(MessageDecodeErr)`
(the crate's `MessageResult` alias for `Result<Message, MessageDecodeErr>`). -/
inductive MessageResult where
  | ok (message : Message)
  | err (error : MessageDecodeErr)
deriving DecidableEq

/-- SAME/EAS receiver status, embedded from the `FrameOut` enum of
`receiver/output.rs`: reports changes in the framing state to the caller. -/
inductive FrameOut where
  | NoCarrier
  | Searching
  | Reading
  | Ready (result : MessageResult)
deriving DecidableEq

/-- True if the Framer wants data; embedded from `FrameOut::is_active` in
`receiver/output.rs`: `Searching` and `Reading` map to `true`, every other
variant falls to the catch-all `false` arm. -/
def FrameOut.is_active : FrameOut → Bool
  | FrameOut.Searching => true
  | FrameOut.Reading => true
  | _ => false

/-- SAME transport layer status, embedded from the `TransportState` enum of
`receiver/output.rs`. -/
inductive TransportState where
  | Idle
  | Assembling
  | Message (result : MessageResult)
deriving DecidableEq

/-- Modelled from the spec: one burst of a SAME transmission — an ordered
sequence of raw payload bits collected by the Framer, tagged with its arrival
time when forwarded to the Transport. -/
structure Burst where
  bits : List Bool
  arrival : Nat
deriving DecidableEq

/-- The bit a burst contributes at stream position `i` (meaningful only when
`i < bits.length`). -/
def Burst.bit (b : Burst) (i : Nat) : Bool :=
  b.bits.getD i false

/-- Modelled from the spec: the bursts that have a bit at position `i` —
shorter bursts contribute only up to their own length. -/
def contributors (bursts : List Burst) (i : Nat) : List Burst :=
  bursts.filter (fun b => i < b.bits.length)

/-- Modelled from the spec: how many contributing bursts vote value `v` at
position `i`. -/
def votesFor (bursts : List Burst) (i : Nat) (v : Bool) : Nat :=
  (contributors bursts i).countP (fun b => b.bit i = v)

/-- The burst with the smaller arrival time (the first on a tie, matching
arrival order). -/
def minArr (x y : Burst) : Burst :=
  if y.arrival < x.arrival then y else x

/-- Modelled from the spec: the contributing burst at position `i` with the
earliest arrival time, used to break voting ties. -/
def earliestContributor (bursts : List Burst) (i : Nat) : Option Burst :=
  match contributors bursts i with
  | [] => none
  | b :: rest => some (rest.foldl minArr b)

/-- Modelled from the spec: per-position bit voting — the output bit is the
majority value across the bursts that have a bit at that position; ties are
broken by preferring the value from the burst with the earliest arrival
time. -/
def consensusBit (bursts : List Burst) (i : Nat) : Bool :=
  let ones := votesFor bursts i true
  let zeros := votesFor bursts i false
  if zeros < ones then true
  else if ones < zeros then false
  else
    match earliestContributor bursts i with
    | some b => b.bit i
    | none => false

/-- Modelled from the spec: the reference length of a consensus decode — the
longest burst's length. -/
def refLength (bursts : List Burst) : Nat :=
  (bursts.map (fun b => b.bits.length)).foldr max 0

/-- Modelled from the spec: the consensus payload built from the collected
bursts by per-position bit voting, using the longest burst's length as the
reference length. -/
def consensus (bursts : List Burst) : List Bool :=
  (List.range (refLength bursts)).map (consensusBit bursts)

/-- Modelled from the spec: the Transport (burst assembler) — its state, the
burst history for the current transmission cycle (each entry tagged with its
arrival time), and the single pending completion deadline, if any. -/
structure Transport where
  state : TransportState
  history : List Burst
  deadline : Option Nat
deriving DecidableEq

/-- The initial (and post-reset) Transport: `Idle`, empty history, no pending
deadline. -/
def Transport.init : Transport :=
  { state := TransportState.Idle, history := [], deadline := none }

/-- Modelled from the spec: `accept_burst(burst, arrival_time)` appends the
burst to the current history (ignoring bursts beyond the configured maximum
count of 3, and bursts delimited after a cycle has finalized but before
reset), resets the completion deadline to `arrival_time + hold_off`, and
transitions `Idle`/`Assembling` to `Assembling`. -/
def accept_burst (holdOff : Nat) (t : Transport) (payload : List Bool)
    (arrival : Nat) : Transport :=
  match t.state with
  | TransportState.Message _ => t
  | _ =>
    if 3 ≤ t.history.length then t
    else
      { state := TransportState.Assembling,
        history := t.history ++ [⟨payload, arrival⟩],
        deadline := some (arrival + holdOff) }

/-- Modelled from the spec: `tick(now)` — if `now` has passed the pending
deadline and at least one burst is in history, the cycle is finalized: a
single burst is decoded directly, two or three bursts go through consensus,
the outcome becomes `TransportState::Message(result)` which is reported once,
and then the history is cleared and the state resets to `Idle`.  The reported
event, if any, is the second component. -/
def tick (decode : List Bool → MessageResult) (t : Transport) (now : Nat) :
    Transport × Option TransportState :=
  match t.deadline with
  | none => (t, none)
  | some d =>
    if d ≤ now ∧ t.history ≠ [] then
      let payload :=
        match t.history with
        | [b] => b.bits
        | hs => consensus hs
      (Transport.init, some (TransportState.Message (decode payload)))
    else (t, none)

/-- The Transport states reachable from the initial state under any sequence
of accepted bursts and ticks. -/
inductive Reachable (holdOff : Nat) (decode : List Bool → MessageResult) :
    Transport → Prop where
  | init : Reachable holdOff decode Transport.init
  | accept {t : Transport} {p : List Bool} {a : Nat} :
      Reachable holdOff decode t →
      Reachable holdOff decode (accept_burst holdOff t p a)
  | step {t : Transport} {now : Nat} :
      Reachable holdOff decode t →
      Reachable holdOff decode (tick decode t now).fst

/-- A concrete stand-in for the external Message Decoder, used to instantiate
theorems that hold for every decoder. -/
def sampleDecode (payload : List Bool) : MessageResult :=
  MessageResult.ok ⟨payload⟩

/-- Every burst's length is bounded by the reference length. -/
theorem le_refLength {l : List Burst} {b : Burst} (hb : b ∈ l) :
    b.bits.length ≤ refLength l := by
  induction l with
  | nil => cases hb
  | cons a l ih =>
    have hstep : refLength (a :: l) = max a.bits.length (refLength l) := rfl
    rcases List.mem_cons.mp hb with h | h
    · rw [h, hstep]; exact Nat.le_max_left _ _
    · rw [hstep]; exact le_trans (ih h) (Nat.le_max_right _ _)

/-- The reference length of a nonempty history is realized by some burst. -/
theorem refLength_mem {l : List Burst} (hne : l ≠ []) :
    ∃ b ∈ l, refLength l = b.bits.length := by
  induction l with
  | nil => exact absurd rfl hne
  | cons a l ih =>
    cases l with
    | nil =>
      refine ⟨a, List.mem_singleton_self a, ?_⟩
      have : refLength [a] = max a.bits.length 0 := rfl
      omega
    | cons c cs =>
      obtain ⟨b, hb, he⟩ := ih (by simp)
      have hstep : refLength (a :: c :: cs) = max a.bits.length (refLength (c :: cs)) := rfl
      rcases Nat.le_total (refLength (c :: cs)) a.bits.length with h | h
      · exact ⟨a, List.mem_cons_self a _, by rw [hstep]; exact Nat.max_eq_left h⟩
      · exact ⟨b, List.mem_cons_of_mem a hb, by rw [hstep, Nat.max_eq_right h, he]⟩

/-- The consensus payload has exactly the reference length. -/
theorem consensus_length (l : List Burst) : (consensus l).length = refLength l := by
  simp [consensus]

/-- Within the reference length, the consensus payload holds the voted bit. -/
theorem consensus_getD {l : List Burst} {i : Nat} (h : i < refLength l) :
    (consensus l).getD i false = consensusBit l i := by
  simp [consensus, List.getD_eq_getElem?_getD, List.getElem?_map, List.getElem?_range, h]

/-- Filtering to the bursts that cover position `i` is idempotent. -/
theorem contributors_idem (l : List Burst) (i : Nat) :
    contributors (contributors l i) i = contributors l i := by
  simp [contributors, List.filter_filter]

/-- The voted bit at a position is decided only by the bursts that cover it. -/
theorem consensusBit_contributors (l : List Burst) (i : Nat) :
    consensusBit (contributors l i) i = consensusBit l i := by
  simp [consensusBit, votesFor, earliestContributor, contributors_idem]

/-- Folding `minArr` returns the element whose arrival time is strictly
smallest. -/
theorem foldl_minArr_eq {b : Burst} :
    ∀ (xs : List Burst) (x : Burst), b ∈ x :: xs →
      (∀ c ∈ x :: xs, c ≠ b → b.arrival < c.arrival) →
      xs.foldl minArr x = b := by
  intro xs
  induction xs with
  | nil =>
    intro x hb _
    rcases List.mem_cons.mp hb with h | h
    · exact h.symm
    · cases h
  | cons y ys ih =>
    intro x hb hmin
    have hxy : minArr x y = x ∨ minArr x y = y := by
      unfold minArr; split <;> simp
    have hb' : b ∈ minArr x y :: ys := by
      rcases List.mem_cons.mp hb with hbx | hb2
      · have hxmin : minArr x y = x := by
          unfold minArr
          split
          · rename_i hlt
            by_cases hyb : y = b
            · exact hyb.trans hbx
            · have hby := hmin y (by simp) hyb
              rw [hbx] at hby
              omega
          · rfl
        rw [hxmin, ← hbx]
        exact List.mem_cons_self _ _
      · rcases List.mem_cons.mp hb2 with hby | hbys
        · have hymin : minArr x y = b := by
            unfold minArr
            split
            · exact hby.symm
            · rename_i hnlt
              by_cases hxb : x = b
              · exact hxb
              · have hba := hmin x (by simp) hxb
                rw [← hby] at hnlt
                omega
          rw [hymin]
          exact List.mem_cons_self _ _
        · exact List.mem_cons_of_mem _ hbys
    have hmin' : ∀ c ∈ minArr x y :: ys, c ≠ b → b.arrival < c.arrival := by
      intro c hc hcb
      rcases List.mem_cons.mp hc with hcm | hcys
      · rcases hxy with h | h
        · exact hmin c (by rw [hcm, h]; exact List.mem_cons_self _ _) hcb
        · exact hmin c (by rw [hcm, h]; simp) hcb
      · exact hmin c (by simp [hcys]) hcb
    exact ih (minArr x y) hb' hmin'

/-- C4: for three bursts in history at finalization and any bit position at
which two bursts agree and the third disagrees, the consensus payload's bit at
that position equals the value held by the two agreeing bursts (per-position
majority voting). -/
theorem consensus_majority_bit (b1 b2 b3 : Burst) (i : Nat) (v : Bool)
    (h1 : i < b1.bits.length) (h2 : i < b2.bits.length) (h3 : i < b3.bits.length)
    (hcase : (b1.bit i = v ∧ b2.bit i = v ∧ b3.bit i ≠ v) ∨
      (b1.bit i = v ∧ b2.bit i ≠ v ∧ b3.bit i = v) ∨
      (b1.bit i ≠ v ∧ b2.bit i = v ∧ b3.bit i = v)) :
    (consensus [b1, b2, b3]).getD i false = v := by
  have href : i < refLength [b1, b2, b3] :=
    lt_of_lt_of_le h1 (le_refLength (by simp))
  rw [consensus_getD href]
  have hcontrib : contributors [b1, b2, b3] i = [b1, b2, b3] := by
    simp [contributors, List.filter, h1, h2, h3]
  rcases hcase with ⟨e1, e2, e3⟩ | ⟨e1, e2, e3⟩ | ⟨e1, e2, e3⟩ <;> cases v <;>
    simp only [Bool.not_eq_false, Bool.not_eq_true] at e1 e2 e3 <;>
    simp [consensusBit, votesFor, hcontrib, List.countP_cons, e1, e2, e3]

/-- A concrete three-burst history with differing lengths, used to witness the
consensus theorems. -/
def sampleBursts : List Burst :=
  [⟨[true, false], 0⟩, ⟨[true], 1⟩, ⟨[], 2⟩]

/-- Witness for C4 at concrete bursts: positions covered by all of
`[true, true], [true, false], [false, true]`, with two bursts agreeing and one
disagreeing at each of the two positions. -/
theorem consensus_majority_bit_witness :
    (0 < ([true, true] : List Bool).length ∧
      ((Burst.mk [true, true] 0).bit 0 = true ∧
        (Burst.mk [true, false] 1).bit 0 = true ∧
        (Burst.mk [false, true] 2).bit 0 ≠ true) ∧
      (consensus [⟨[true, true], 0⟩, ⟨[true, false], 1⟩, ⟨[false, true], 2⟩]).getD 0 false
        = true) ∧
    (1 < ([true, true] : List Bool).length ∧
      (consensus [⟨[true, true], 0⟩, ⟨[true, false], 1⟩, ⟨[false, true], 2⟩]).getD 1 false
        = true) :=
  ⟨⟨by decide, by decide,
      consensus_majority_bit ⟨[true, true], 0⟩ ⟨[true, false], 1⟩ ⟨[false, true], 2⟩ 0 true
        (by decide) (by decide) (by decide)
        (Or.inl ⟨by decide, by decide, by decide⟩)⟩,
    ⟨by decide,
      consensus_majority_bit ⟨[true, true], 0⟩ ⟨[true, false], 1⟩ ⟨[false, true], 2⟩ 1 true
        (by decide) (by decide) (by decide)
        (Or.inr (Or.inl ⟨by decide, by decide, by decide⟩))⟩⟩

/-- C5: for a finalization with two or three bursts, the consensus payload's
length equals the longest burst's length, and at each position the output is
decided only by the bursts that cover that position (so positions beyond a
shorter burst's end are decided by the remaining bursts alone). -/
theorem consensus_length_and_coverage (bursts : List Burst)
    (hlen : 2 ≤ bursts.length) :
    ((∃ b ∈ bursts, (consensus bursts).length = b.bits.length) ∧
      ∀ b ∈ bursts, b.bits.length ≤ (consensus bursts).length) ∧
    (∀ i, i < (consensus bursts).length →
      (consensus bursts).getD i false = consensusBit (contributors bursts i) i) := by
  have hne : bursts ≠ [] := by
    intro h
    rw [h] at hlen
    simp at hlen
  refine ⟨⟨?_, ?_⟩, ?_⟩
  · obtain ⟨b, hb, he⟩ := refLength_mem hne
    exact ⟨b, hb, by rw [consensus_length, he]⟩
  · intro b hb
    rw [consensus_length]
    exact le_refLength hb
  · intro i hi
    rw [consensus_length] at hi
    rw [consensus_getD hi, consensusBit_contributors]

/-- Witness for C5 at a concrete three-burst history of lengths 2, 1, 0. -/
theorem consensus_length_and_coverage_witness :
    2 ≤ sampleBursts.length ∧
    (((∃ b ∈ sampleBursts, (consensus sampleBursts).length = b.bits.length) ∧
        ∀ b ∈ sampleBursts, b.bits.length ≤ (consensus sampleBursts).length) ∧
      (∀ i, i < (consensus sampleBursts).length →
        (consensus sampleBursts).getD i false
          = consensusBit (contributors sampleBursts i) i)) :=
  ⟨by decide, consensus_length_and_coverage sampleBursts (by decide)⟩

/-- C6: at a bit position where the contributing bursts split their votes
evenly, the consensus output bit equals the bit of the contributing burst with
the (strictly) earliest arrival time. -/
theorem consensus_tie_earliest_arrival (bursts : List Burst) (i : Nat) (b : Burst)
    (hb : b ∈ contributors bursts i)
    (hmin : ∀ c ∈ contributors bursts i, c ≠ b → b.arrival < c.arrival)
    (htie : votesFor bursts i true = votesFor bursts i false) :
    consensusBit bursts i = b.bit i := by
  have hn1 : ¬ (votesFor bursts i false < votesFor bursts i true) := by omega
  have hn2 : ¬ (votesFor bursts i true < votesFor bursts i false) := by omega
  cases hc : contributors bursts i with
  | nil =>
    rw [hc] at hb
    cases hb
  | cons x xs =>
    have hearly : earliestContributor bursts i = some b := by
      unfold earliestContributor
      rw [hc]
      exact congrArg some (foldl_minArr_eq xs x (hc ▸ hb) (fun c hcm => hmin c (hc ▸ hcm)))
    simp [consensusBit, hn1, hn2, hearly]

/-- Witness for C6: two single-bit bursts that disagree, the earlier arrival
carrying `true`; the tie resolves to `true`. -/
theorem consensus_tie_earliest_arrival_witness :
    (Burst.mk [true] 0 ∈ contributors [⟨[true], 0⟩, ⟨[false], 1⟩] 0 ∧
      (∀ c ∈ contributors [⟨[true], 0⟩, ⟨[false], 1⟩] 0,
        c ≠ Burst.mk [true] 0 → (Burst.mk [true] 0).arrival < c.arrival) ∧
      votesFor [⟨[true], 0⟩, ⟨[false], 1⟩] 0 true
        = votesFor [⟨[true], 0⟩, ⟨[false], 1⟩] 0 false) ∧
    consensusBit [⟨[true], 0⟩, ⟨[false], 1⟩] 0 = (Burst.mk [true] 0).bit 0 :=
  ⟨⟨by decide, by decide, by decide⟩,
    consensus_tie_earliest_arrival [⟨[true], 0⟩, ⟨[false], 1⟩] 0 ⟨[true], 0⟩
      (by decide) (by decide) (by decide)⟩

/-- The Transport after accepting three bursts in one cycle (hold-off 1). -/
def transport3 : Transport :=
  accept_burst 1 (accept_burst 1 (accept_burst 1 Transport.init [true] 0) [true] 1) [true] 2

/-- Counterexample to C3 as stated: a reachable Transport that is `Assembling`
with three bursts in its history — the configured maximum burst count is
three, so `Assembling` does not imply one-or-two bursts. -/
theorem assembling_three_bursts_cex :
    Reachable 1 sampleDecode transport3 ∧
    transport3.state = TransportState.Assembling ∧
    ¬ (transport3.history.length = 1 ∨ transport3.history.length = 2) := by
  refine ⟨?_, by decide, by decide⟩
  unfold transport3
  exact Reachable.accept (Reachable.accept (Reachable.accept Reachable.init))

/-- C3 (amended): every reachable Transport state is exactly one of `Idle`,
`Assembling`, or `Message(result)`, and the state classifies the burst
history: in `Idle` the history holds no bursts, and in `Assembling` it holds
between one and three bursts. -/
theorem transport_state_classifies_history (holdOff : Nat)
    (decode : List Bool → MessageResult) (t : Transport)
    (hr : Reachable holdOff decode t) :
    (t.state = TransportState.Idle ∨ t.state = TransportState.Assembling ∨
      ∃ r, t.state = TransportState.Message r) ∧
    (t.state = TransportState.Idle → t.history = []) ∧
    (t.state = TransportState.Assembling →
      1 ≤ t.history.length ∧ t.history.length ≤ 3) := by
  induction hr with
  | init =>
    refine ⟨Or.inl rfl, fun _ => rfl, fun h => ?_⟩
    simp [Transport.init] at h
  | @accept t p a _ ih =>
    obtain ⟨hshape, hidle, hasm⟩ := ih
    unfold accept_burst
    rcases hshape with hs | hs | ⟨r, hs⟩
    · rw [hs, hidle hs]
      refine ⟨Or.inr (Or.inl rfl), ?_, ?_⟩ <;> simp
    · rw [hs]
      by_cases h3 : 3 ≤ t.history.length
      · rw [if_pos h3]
        exact ⟨Or.inr (Or.inl hs), fun h => absurd (hs ▸ h) (by simp), fun _ => hasm hs⟩
      · rw [if_neg h3]
        refine ⟨Or.inr (Or.inl rfl), by simp, fun _ => ?_⟩
        simp only [List.length_append, List.length_cons, List.length_nil]
        omega
    · rw [hs]
      exact ⟨Or.inr (Or.inr ⟨r, hs⟩), fun h => hidle h, fun h => hasm h⟩
  | @step t now _ ih =>
    unfold tick
    split
    · exact ih
    · split
      · refine ⟨Or.inl rfl, fun _ => rfl, fun h => ?_⟩
        simp [Transport.init] at h
      · exact ih

/-- Witness for the amended C3 at the initial Transport. -/
theorem transport_state_classifies_history_witness :
    Reachable 1 sampleDecode Transport.init ∧
    ((Transport.init.state = TransportState.Idle ∨
        Transport.init.state = TransportState.Assembling ∨
        ∃ r, Transport.init.state = TransportState.Message r) ∧
      (Transport.init.state = TransportState.Idle → Transport.init.history = []) ∧
      (Transport.init.state = TransportState.Assembling →
        1 ≤ Transport.init.history.length ∧ Transport.init.history.length ≤ 3)) :=
  ⟨Reachable.init,
    transport_state_classifies_history 1 sampleDecode Transport.init Reachable.init⟩

/-- C7: whenever a tick finalizes the cycle and reports an event, that single
event is `Message(result)`, and afterwards the history is cleared and the
state returns to `Idle`; any burst accepted later therefore lands in a freshly
cleared history. -/
theorem tick_reports_once_and_resets (decode : List Bool → MessageResult)
    (t : Transport) (now : Nat) (ev : TransportState)
    (hev : (tick decode t now).snd = some ev) :
    (∃ r, ev = TransportState.Message r) ∧
    (tick decode t now).fst.state = TransportState.Idle ∧
    (tick decode t now).fst.history = [] ∧
    (∀ holdOff p a,
      (accept_burst holdOff (tick decode t now).fst p a).history
        = [Burst.mk p a]) := by
  have H : tick decode t now = (t, none) ∨
      ∃ r, tick decode t now = (Transport.init, some (TransportState.Message r)) := by
    unfold tick
    cases t.deadline with
    | none => exact Or.inl rfl
    | some d =>
      by_cases hc : d ≤ now ∧ t.history ≠ []
      · exact Or.inr ⟨_, if_pos hc⟩
      · exact Or.inl (if_neg hc)
  rcases H with H | ⟨r, H⟩
  · rw [H] at hev
    simp at hev
  · rw [H] at hev ⊢
    simp only [Option.some.injEq] at hev
    refine ⟨⟨r, hev.symm⟩, rfl, rfl, fun holdOff p a => ?_⟩
    simp [accept_burst, Transport.init]

/-- The Transport after accepting a single one-bit burst at time 0 with
hold-off 1. -/
def transport1 : Transport :=
  accept_burst 1 Transport.init [true] 0

/-- Witness for C7: ticking `transport1` at time 5 reports the decode of its
single burst and resets. -/
theorem tick_reports_once_and_resets_witness :
    (tick sampleDecode transport1 5).snd
      = some (TransportState.Message (MessageResult.ok ⟨[true]⟩)) ∧
    ((∃ r, TransportState.Message (MessageResult.ok ⟨[true]⟩)
        = TransportState.Message r) ∧
      (tick sampleDecode transport1 5).fst.state = TransportState.Idle ∧
      (tick sampleDecode transport1 5).fst.history = [] ∧
      (∀ holdOff p a,
        (accept_burst holdOff (tick sampleDecode transport1 5).fst p a).history
          = [Burst.mk p a])) :=
  ⟨by decide,
    tick_reports_once_and_resets sampleDecode transport1 5
      (TransportState.Message (MessageResult.ok ⟨[true]⟩)) (by decide)⟩

/-- C8: ticking an `Idle` Transport with an empty burst history is a no-op —
no event is emitted and the state is unchanged — and any sequence of such
ticks leaves it `Idle` forever. -/
theorem tick_idle_empty_noop (decode : List Bool → MessageResult) (t : Transport)
    (hstate : t.state = TransportState.Idle) (hh : t.history = []) :
    (∀ now, tick decode t now = (t, none)) ∧
    (∀ times : List Nat,
      times.foldl (fun s n => (tick decode s n).fst) t = t) := by
  have key : ∀ now, tick decode t now = (t, none) := by
    intro now
    unfold tick
    split
    · rfl
    · rw [if_neg]
      simp [hh]
  refine ⟨key, fun times => ?_⟩
  induction times with
  | nil => rfl
  | cons n ns ih => simp [List.foldl_cons, key n, ih]

/-- Witness for C8 at the initial Transport. -/
theorem tick_idle_empty_noop_witness :
    Transport.init.state = TransportState.Idle ∧
    Transport.init.history = [] ∧
    ((∀ now, tick sampleDecode Transport.init now = (Transport.init, none)) ∧
      (∀ times : List Nat,
        times.foldl (fun s n => (tick sampleDecode s n).fst) Transport.init
          = Transport.init)) :=
  ⟨rfl, rfl, tick_idle_empty_noop sampleDecode Transport.init rfl rfl⟩

/-- Modelled from the spec: the Framer's private state — `NoCarrier` initial,
`Searching` for the burst-start marker, `Reading` burst payload. -/
inductive FramerState where
  | NoCarrier
  | Searching
  | Reading
deriving DecidableEq

/-- Modelled from the spec: fixed Framer configuration — the burst-start
marker bit pattern, the maximum payload length, and the terminating-marker
detector on the accumulated payload. -/
structure FramerConfig where
  startSeq : List Bool
  maxLen : Nat
  endsBurst : List Bool → Bool

/-- Modelled from the spec: a Framer/Transport pair — the Framer's state, its
recent-bit window used for marker matching while `Searching`, the in-progress
burst payload while `Reading`, and the Transport it forwards completed bursts
to. -/
structure Receiver where
  framer : FramerState
  window : List Bool
  payload : List Bool
  transport : Transport

/-- One input unit to the Framer: the carrier-present signal turning on or
off, one stream bit (timestamped), or an inter-byte timeout (timestamped). -/
inductive FramerInput where
  | carrierOn
  | carrierOff
  | bit (b : Bool) (now : Nat)
  | timeout (now : Nat)

/-- The last `n` elements of a list, used for marker-window matching. -/
def lastN (n : Nat) (l : List Bool) : List Bool :=
  l.drop (l.length - n)

/-- Modelled from the spec: one step of the Framer state machine.
`NoCarrier` goes to `Searching` when carrier-present becomes true; `Searching`
goes to `Reading` when the recent bits match the burst-start marker (the
marker is not included in the payload); `Reading` accumulates payload bits and,
when a burst-end condition fires (terminating marker, maximum length exceeded,
or inter-byte timeout), forwards the accumulated payload to the Transport and
returns to `Searching`; carrier loss from any state yields `NoCarrier` and
abandons any in-progress burst without forwarding it. -/
def framerStep (cfg : FramerConfig) (holdOff : Nat) (r : Receiver)
    (inp : FramerInput) : Receiver :=
  match inp with
  | FramerInput.carrierOff =>
    { framer := FramerState.NoCarrier, window := [], payload := [],
      transport := r.transport }
  | FramerInput.carrierOn =>
    match r.framer with
    | FramerState.NoCarrier =>
      { r with framer := FramerState.Searching, window := [], payload := [] }
    | _ => r
  | FramerInput.timeout now =>
    match r.framer with
    | FramerState.Reading =>
      { framer := FramerState.Searching, window := [], payload := [],
        transport := accept_burst holdOff r.transport r.payload now }
    | _ => r
  | FramerInput.bit b now =>
    match r.framer with
    | FramerState.NoCarrier => r
    | FramerState.Searching =>
      let w := lastN cfg.startSeq.length (r.window ++ [b])
      if w = cfg.startSeq then
        { r with framer := FramerState.Reading, window := [], payload := [] }
      else { r with window := w }
    | FramerState.Reading =>
      let p := r.payload ++ [b]
      if cfg.endsBurst p ∨ cfg.maxLen ≤ p.length then
        { framer := FramerState.Searching, window := [], payload := [],
          transport := accept_burst holdOff r.transport p now }
      else { r with payload := p }

/-- C9: from every Framer state, the step in which carrier-present becomes
false takes the Framer to `NoCarrier`, discards the in-progress burst without
forwarding it to the Transport, and leaves the Transport — its burst history
and its deadline — untouched, so bursts it already accepted remain eligible
for the next deadline-triggered finalization. -/
theorem carrier_loss_cancels (cfg : FramerConfig) (holdOff : Nat) (r : Receiver) :
    (framerStep cfg holdOff r FramerInput.carrierOff).framer = FramerState.NoCarrier ∧
    (framerStep cfg holdOff r FramerInput.carrierOff).window = [] ∧
    (framerStep cfg holdOff r FramerInput.carrierOff).payload = [] ∧
    (framerStep cfg holdOff r FramerInput.carrierOff).transport = r.transport ∧
    (∀ decode now,
      tick decode (framerStep cfg holdOff r FramerInput.carrierOff).transport now
        = tick decode r.transport now) :=
  ⟨rfl, rfl, rfl, rfl, fun _ _ => rfl⟩

/-- C1: for every input history, `is_active()` returns true if and only if the
current state is `Searching` or `Reading` (and in particular it returns false
in `NoCarrier`). -/
theorem is_active_iff_searching_or_reading (e : FrameOut) :
    e.is_active = true ↔ (e = FrameOut.Searching ∨ e = FrameOut.Reading) := by
  cases e <;> simp [FrameOut.is_active]

/-- C2: every event delivered on the event surface is exactly one of
`NoCarrier`, `Searching`, `Reading`, or `Ready` carrying either a decoded
message or a decode error; no other event shapes exist. -/
theorem frameOut_event_shapes (e : FrameOut) :
    e = FrameOut.NoCarrier ∨ e = FrameOut.Searching ∨ e = FrameOut.Reading ∨
      (∃ m, e = FrameOut.Ready (MessageResult.ok m)) ∨
      (∃ err, e = FrameOut.Ready (MessageResult.err err)) := by
  cases e with
  | NoCarrier => exact Or.inl rfl
  | Searching => exact Or.inr (Or.inl rfl)
  | Reading => exact Or.inr (Or.inr (Or.inl rfl))
  | Ready r =>
    cases r with
    | ok m => exact Or.inr (Or.inr (Or.inr (Or.inl ⟨m, rfl⟩)))
    | err e => exact Or.inr (Or.inr (Or.inr (Or.inr ⟨e, rfl⟩)))

/-- C10: for every result value, both success and error, `is_active()` on the
`Ready(result)` event returns false: after a message result is reported the
framer reports itself inactive, the same as in `NoCarrier`. -/
theorem ready_is_not_active (r : MessageResult) :
    (FrameOut.Ready r).is_active = false := by
  cases r <;> rfl

end Sameold
